import Mathlib

/-!
Verification of the Markov (normal algorithm) interpreter in markov.js.

Strings are embedded as lists of characters.  The three source components
are embedded as:

* Markov.Statement  — the structure `Statement`, with `Statement.compile`
  (the regex `Statement.REGEX` plus the validation checks), the
  constructor normalisation `Statement.make` (setFrom / setTo) and the
  rendering `Statement.render` (toString);
* Markov.Algorithm  — a plain `List Statement` with `addStatement` and
  `removeStatement`, including the JavaScript `Array.prototype.slice`
  index arithmetic;
* Markov.Runner     — the structure `Runner` with `step`, `stepIter` and
  `runCount`.

JavaScript semantics embedded explicitly:

* `String.prototype.replace(pat, rep)` with string arguments replaces the
  first literal occurrence of `pat` and performs dollar substitution in
  `rep` (dollar-dollar, dollar-ampersand, dollar-backquote,
  dollar-quote); this is `jsReplace`.
* `String.prototype.search(pat)` coerces `pat` to a regular expression.
  The model `searchMatches` implements that coercion for patterns built
  from literal characters each optionally followed by a Kleene star
  (which covers every pattern free of regex metacharacters, and the
  starred patterns used below); patterns outside this fragment fall back
  to plain substring search and are kept out of every theorem.
* `Array.prototype.slice` relative/clamped indices are `jsSlice`.
-/

namespace Markov

/-- ASCII whitespace, as matched by the backslash-s class of the source
regular expression on the character set used throughout. -/
def isWS (c : Char) : Bool :=
  c = ' ' || c = '\t' || c = '\n' || c = '\r' || c = '\x0b' || c = '\x0c'

/-- Characters allowed inside the body of an LHS/RHS token of
Statement.REGEX: the class excluding whitespace, the bang and the dot. -/
def isTok (c : Char) : Bool :=
  !(isWS c) && c ≠ '!' && c ≠ '.'

/-- Greedy match of the backslash-s-star subpattern. -/
def dropWS : List Char → List Char
  | [] => []
  | c :: t => if isWS c then dropWS t else c :: t

/-- The two ways the optional-bang subpattern can match, in the greedy
preference order of the regex engine (take the bang first). -/
def optBang : List Char → List (List Char × List Char)
  | [] => [([], [])]
  | c :: t => if c = '!' then [(['!'], t), ([], c :: t)] else [([], c :: t)]

/-- All ways the starred token-character class can match a prefix,
longest first, as the backtracking regex engine tries them. -/
def tokSplits : List Char → List (List Char × List Char)
  | [] => [([], [])]
  | c :: t =>
    if isTok c then (tokSplits t).map (fun p => (c :: p.1, p.2)) ++ [([], c :: t)]
    else [([], c :: t)]

/-- All ways the capture group (optional bang, token run, optional bang)
of Statement.REGEX can match a prefix, in backtracking preference
order. -/
def tokenCands (cs : List Char) : List (List Char × List Char) :=
  (optBang cs).flatMap (fun p1 =>
    (tokSplits p1.2).flatMap (fun pm =>
      (optBang pm.2).map (fun p2 => (p1.1 ++ (pm.1 ++ p2.1), p2.2))))

/-- First successful alternative of a backtracking search. -/
def firstSome : List α → (α → Option β) → Option β
  | [], _ => none
  | x :: xs, f => (f x).orElse (fun _ => firstSome xs f)

/-- The arrow part of Statement.REGEX: whitespace, one of equals/minus,
whitespace, a greater-than sign.  Returns the remaining input.  These
whitespace stars are forced because none of minus, equals or greater-than
is whitespace. -/
def gtCheck : List Char → Option (List Char)
  | [] => none
  | d :: r => if d = '>' then some r else none

def arrowHead : List Char → Option (List Char)
  | [] => none
  | c :: t => if c = '=' || c = '-' then gtCheck (dropWS t) else none

def arrowTail (cs : List Char) : Option (List Char) :=
  arrowHead (dropWS cs)

/-- A compiled rewrite rule (Markov.Statement).  Fields keep the source
names; the keyword `from` is written with guillemets. -/
structure Statement where
  «from» : List Char
  «to» : List Char
  closing : Bool
deriving DecidableEq, Repr

/-- String.prototype.replace with the one-character string bang and the
empty replacement: removes the first occurrence of the bang, if any. -/
def removeFirstBang : List Char → List Char
  | [] => []
  | c :: t => if c = '!' then t else c :: removeFirstBang t

/-- The normalisation both setFrom and setTo perform: two successive
replace calls, so the first two bang occurrences are removed. -/
def stripBangs (cs : List Char) : List Char :=
  removeFirstBang (removeFirstBang cs)

/-- The Markov.Statement constructor: setFrom and setTo store the
bang-stripped tokens.  The setFrom special case for the lone-bang token
stores the same stripped value, and its local reassignment of the
argument is dead, so the net effect is exactly the stripping. -/
def Statement.make (f t : List Char) (closing : Bool) : Statement :=
  ⟨stripBangs f, stripBangs t, closing⟩

/-- The part of Statement.REGEX after the arrow: whitespace, the greedy
dot star (capture group 2), whitespace, the RHS capture, trailing
whitespace.  The dot star is forced-greedy because no following
subpattern can consume a dot.  Returns (at least one dot, RHS capture). -/
def restParse (rest : List Char) : Option (Bool × List Char) :=
  firstSome (tokenCands (dropWS ((dropWS rest).dropWhile (fun c => c = '.'))))
    (fun pr =>
      if dropWS pr.2 = [] then
        some (!((dropWS rest).takeWhile (fun c => c = '.')).isEmpty, pr.1)
      else none)

/-- Combine the arrow-parse result with the parse of everything after
the arrow, keeping the LHS capture. -/
def lhsCont2 : Option (List Char) → List Char → Option (List Char × Bool × List Char)
  | none, _ => none
  | some rest, cap => (restParse rest).map (fun q => (cap, q.1, q.2))

/-- The continuation tried for one LHS capture candidate: the arrow,
then everything after it. -/
def lhsCont (pl : List Char × List Char) : Option (List Char × Bool × List Char) :=
  lhsCont2 (arrowTail pl.2) pl.1

/-- Statement.REGEX executed on an input: leading whitespace, the LHS
capture, the arrow, the dots, the RHS capture, trailing whitespace.
Backtracking is global: a capture candidate is kept only if the whole
rest of the pattern matches after it.  Returns (LHS capture, at least
one dot, RHS capture). -/
def execRegex (cs : List Char) : Option (List Char × Bool × List Char) :=
  firstSome (tokenCands (dropWS cs)) lhsCont

/-- The four validation throws of Statement.compile in source order (no
LHS, no RHS, doubled bang on either side), then the constructor. -/
def compileChecks (l : List Char) (d : Bool) (r : List Char) : Option Statement :=
  if l.length < 1 then none
  else if r.length < 1 then none
  else if l = ['!', '!'] then none
  else if r = ['!', '!'] then none
  else some (Statement.make l r d)

/-- Dispatch on the regex result. -/
def compile2 : Option (List Char × Bool × List Char) → Option Statement
  | none => none
  | some (l, d, r) => compileChecks l d r

/-- Statement.compile: run the regex, then the validation checks.
Failure is `none`. -/
def compile (cs : List Char) : Option Statement :=
  compile2 (execRegex cs)

/-- The token part of Statement.prototype.toString: an empty stored side
renders as the bang marker. -/
def renderToken (cs : List Char) : List Char :=
  if cs.length < 1 then ['!'] else cs

/-- Statement.prototype.toString. -/
def Statement.render (s : Statement) : List Char :=
  renderToken s.«from» ++
    (if s.closing then (" ->. ".toList) else (" -> ".toList)) ++
    renderToken s.«to»

/-! ## Markov.Algorithm -/

/-- Resolve a JavaScript Array.prototype.slice index: negative indices
are relative to the end, and everything is clamped into the array. -/
def relIdx (len : Nat) (i : Int) : Nat :=
  if i < 0 then ((len : Int) + i).toNat else min i.toNat len

/-- JavaScript Array.prototype.slice with two arguments. -/
def jsSlice (l : List α) (s e : Int) : List α :=
  (l.take (relIdx l.length e)).drop (relIdx l.length s)

/-- Algorithm.prototype.addStatement.  The guard in the source is
`typeof position === undefined || typeof position === null ||
statement < 0 || statement > length`: the `null` comparison is against
the string null and is always false, and the two order comparisons
mistakenly use the statement object, so they evaluate to false as well
(a relational comparison with NaN).  The push branch is therefore taken
exactly when the position is omitted; every supplied position goes to the
slice/concat branch.  `slice(position)` is `slice(position, length)`. -/
def addStatement (l : List Statement) (st : Statement) (pos : Option Int) :
    List Statement :=
  match pos with
  | none => l ++ [st]
  | some p => jsSlice l 0 p ++ [st] ++ jsSlice l p (l.length : Int)

/-- Algorithm.prototype.removeStatement.  Returns the updated list and
the removed statement (undefined is `none`).  The source pops when the
position is omitted or at least length minus one, shifts when it is
negative, and otherwise rebuilds the array as
`slice(0, position).concat(slice(0, position + 1))` — the second slice
starts at 0 in the source, which is what this model reproduces. -/
def removeStatement (l : List Statement) (pos : Option Int) :
    List Statement × Option Statement :=
  match pos with
  | none => (l.dropLast, l.getLast?)
  | some p =>
    if p ≥ (l.length : Int) - 1 then (l.dropLast, l.getLast?)
    else if p < 0 then (l.tail, l.head?)
    else (jsSlice l 0 p ++ jsSlice l 0 (p + 1), l[p.toNat]?)

/-! ## Markov.Runner -/

/-- Regex metacharacters; a pattern containing none of these denotes the
regular expression matching exactly its literal occurrences. -/
def isMeta (c : Char) : Bool :=
  c = '^' || c = '$' || c = '\\' || c = '.' || c = '*' || c = '+' ||
  c = '?' || c = '(' || c = ')' || c = '[' || c = ']' ||
  c = Char.ofNat 123 || c = Char.ofNat 125 || c = '|'

/-- Parse a pattern string into the star fragment of JavaScript regular
expressions: a sequence of literal characters, each optionally followed
by a Kleene star.  `none` for patterns outside the fragment. -/
def toAtoms : List Char → Option (List (Char × Bool))
  | [] => some []
  | [c] => if isMeta c then none else some [(c, false)]
  | c :: d :: t =>
    if isMeta c then none
    else if d = '*' then (toAtoms t).map (fun a => (c, true) :: a)
    else (toAtoms (d :: t)).map (fun a => (c, false) :: a)

/-- The suffixes of the input reachable by consuming zero or more
leading copies of `c`: the ways a starred atom can match. -/
def cDrops (c : Char) : List Char → List (List Char)
  | [] => [[]]
  | x :: xs => if x = c then (x :: xs) :: cDrops c xs else [x :: xs]

/-- Match a star-fragment regex against a prefix of the input. -/
def matchFrom : List (Char × Bool) → List Char → Bool
  | [], _ => true
  | (_, false) :: _, [] => false
  | (c, false) :: a, x :: xs => x = c && matchFrom a xs
  | (c, true) :: a, xs => (cDrops c xs).any (fun ys => matchFrom a ys)

/-- Match a star-fragment regex anywhere in the input. -/
def matchAnywhere (a : List (Char × Bool)) : List Char → Bool
  | [] => matchFrom a []
  | c :: t => matchFrom a (c :: t) || matchAnywhere a t

/-- Literal substring occurrence (the applicability notion the spec and
the claims use). -/
def occursSub (pat s : List Char) : Bool :=
  match s with
  | [] => pat.isPrefixOf []
  | c :: t => pat.isPrefixOf (c :: t) || occursSub pat t

/-- The test `context.search(from) > -1` of Runner.prototype.step.
String.prototype.search coerces its string argument to a regular
expression; this model implements the coercion on the star fragment
(`toAtoms`), which covers every metacharacter-free pattern, and falls
back to literal substring search outside the fragment (no theorem below
depends on the fallback). -/
def searchMatches (pat s : List Char) : Bool :=
  match toAtoms pat with
  | some a => matchAnywhere a s
  | none => occursSub pat s

/-- The backquote character, written by code to avoid a literal. -/
def bqChar : Char := Char.ofNat 96

/-- The single quote character, written by code to avoid a literal. -/
def sqChar : Char := Char.ofNat 39

/-- GetSubstitution for String.prototype.replace with a string pattern:
dollar-dollar is a literal dollar, dollar-ampersand the match,
dollar-backquote the part before the match, dollar-quote the part after
it; any other dollar (including dollar-digit, as there are no capture
groups) stays literal. -/
def substDollar (m b a : List Char) : List Char → List Char
  | [] => []
  | c :: t =>
    if c = '$' then
      match t with
      | [] => [c]
      | d :: t2 =>
        if d = '$' then '$' :: substDollar m b a t2
        else if d = '&' then m ++ substDollar m b a t2
        else if d = bqChar then b ++ substDollar m b a t2
        else if d = sqChar then a ++ substDollar m b a t2
        else c :: d :: substDollar m b a t2
    else c :: substDollar m b a t

/-- Index of the first literal occurrence of `pat` in `s`, if any. -/
def firstOccur (pat s : List Char) : Option Nat :=
  match s with
  | [] => if pat.isPrefixOf [] then some 0 else none
  | c :: t =>
    if pat.isPrefixOf (c :: t) then some 0
    else (firstOccur pat t).map (· + 1)

/-- String.prototype.replace with two string arguments: replace the
first literal occurrence of `pat`, substituting dollar escapes in the
replacement; if `pat` does not occur, return the string unchanged. -/
def jsReplace (s pat rep : List Char) : List Char :=
  match firstOccur pat s with
  | none => s
  | some i =>
    s.take i ++ substDollar pat (s.take i) (s.drop (i + pat.length)) rep ++
      s.drop (i + pat.length)

/-- One history entry of Runner.steps. -/
structure StepRec where
  context : List Char
  statement : Option Statement
deriving DecidableEq, Repr

/-- The Runner state: context, step history, done flag.  The bound
algorithm is passed to `step` explicitly. -/
structure Runner where
  context : List Char
  steps : List StepRec
  done : Bool
deriving DecidableEq, Repr

/-- The Runner constructor for a string context. -/
def initRunner (c : List Char) : Runner := ⟨c, [], false⟩

/-- The scan loop of Runner.prototype.step: the first statement, in
order, whose pattern the search test accepts. -/
def findApplicable : List Statement → List Char → Option Statement
  | [], _ => none
  | s :: rest, ctx =>
    if searchMatches s.«from» ctx then some s else findApplicable rest ctx

/-- The scan-and-apply block of Runner.prototype.step: the loop over the
statements, the replace, the history push, and the stop when nothing
acted or the applied statement closes. -/
def stepApply (alg : List Statement) (st : Runner) : Runner × Option Statement :=
  match findApplicable alg st.context with
  | some s =>
    (⟨jsReplace st.context s.«from» s.«to»,
      st.steps ++ [⟨jsReplace st.context s.«from» s.«to», some s⟩],
      s.closing⟩, some s)
  | none => (⟨st.context, st.steps, true⟩, none)

/-- Runner.prototype.step.  A done runner returns immediately; the first
call pushes the initial history entry; then the scan loop applies the
first applicable statement via replace, pushes the new context, and the
runner stops when nothing applied or the applied statement closes. -/
def step (alg : List Statement) (st : Runner) : Runner × Option Statement :=
  if st.done then (st, none)
  else
    stepApply alg
      (if st.steps.length < 1 then
        ⟨st.context, st.steps ++ [⟨st.context, none⟩], st.done⟩
      else st)

/-- Iterated stepping (a caller driving the runner by hand). -/
def stepIter (alg : List Statement) : Nat → Runner → Runner
  | 0, st => st
  | k + 1, st => (step alg (stepIter alg k st)).1

/-- Runner.prototype.run with fuel, counting how many steps applied a
statement (returned a non-null statement). -/
def runCount (alg : List Statement) : Nat → Runner → Runner × Nat
  | 0, st => (st, 0)
  | n + 1, st =>
    if st.done then (st, 0)
    else
      ((runCount alg n (step alg st).1).1,
        (if (step alg st).2.isSome then 1 else 0) +
          (runCount alg n (step alg st).1).2)

/-- Number of history entries recording an applied statement. -/
def appliedCount (l : List StepRec) : Nat :=
  l.countP (fun e => e.statement.isSome)

/-! ## Specification-side definitions

These follow the words of the spec and of the claims, for comparison
with the source-derived definitions above. -/

/-- The shape of an LHS/RHS capture of Statement.REGEX: an optional
bang, a run of token characters, an optional bang. -/
def TokenShape (t : List Char) : Prop :=
  ∃ b1 m b2, (b1 = [] ∨ b1 = ['!']) ∧ (b2 = [] ∨ b2 = ['!']) ∧
    m.all isTok = true ∧ t = b1 ++ (m ++ b2)

/-- Declarative description of the language of Statement.REGEX: some
decomposition into whitespace, an LHS token, whitespace, a minus or
equals sign, whitespace, a greater-than sign, dots, whitespace, an RHS
token and whitespace. -/
def RegexLangMatch (cs : List Char) : Prop :=
  ∃ w1 l w2 w3 w4 dots w5 r w6 : List Char, ∃ ac : Char,
    w1.all isWS = true ∧ w2.all isWS = true ∧ w3.all isWS = true ∧
    w4.all isWS = true ∧ w5.all isWS = true ∧ w6.all isWS = true ∧
    (ac = '-' ∨ ac = '=') ∧ TokenShape l ∧ TokenShape r ∧
    dots.all (fun c => c = '.') = true ∧
    cs = w1 ++ (l ++ (w2 ++ ac :: (w3 ++ '>' ::
      (w4 ++ (dots ++ (w5 ++ (r ++ w6)))))))

/-- All ways a maximal run of non-whitespace characters can match a
prefix, longest first.  Used only to evaluate the grammar that claim C6
describes. -/
def nwsSplits : List Char → List (List Char × List Char)
  | [] => [([], [])]
  | c :: t =>
    if isWS c then [([], c :: t)]
    else (nwsSplits t).map (fun p => (c :: p.1, p.2)) ++ [([], c :: t)]

/-- The literal two-character arrow of the grammar claim C6 states. -/
def arrowLit : List Char → Option (List Char)
  | '-' :: '>' :: r => some r
  | '=' :: '>' :: r => some r
  | _ => none

/-- The single optional dot of the grammar claim C6 states, dot-taken
alternative first. -/
def optDot : List Char → List (List Char × List Char)
  | '.' :: t => [(['.'], t), ([], '.' :: t)]
  | cs => [([], cs)]

/-- The grammar stated by claim C6, executed: tokens are maximal
non-whitespace runs, the arrow is a literal two-character token, at most
one dot follows it, and the checks reject an empty or doubled-bang
token.  This is the claimed behaviour, to be compared with `compile`. -/
def claimedOk (cs : List Char) : Bool :=
  (firstSome (nwsSplits (dropWS cs)) (fun pl =>
    match arrowLit (dropWS pl.2) with
    | none => none
    | some rest =>
      firstSome (optDot (dropWS rest)) (fun pd =>
        firstSome (nwsSplits (dropWS pd.2)) (fun pr =>
          if dropWS pr.2 = [] then some (pl.1, pr.1) else none)))).elim
    false
    (fun p =>
      decide (p.1 ≠ []) && decide (p.2 ≠ []) &&
      decide (p.1 ≠ ['!', '!']) && decide (p.2 ≠ ['!', '!']))

/-- First-occurrence literal replacement as the claims describe it: the
leftmost occurrence of the pattern is replaced by the replacement
string itself, all other characters unchanged. -/
def specReplaceFirst (s pat rep : List Char) : List Char :=
  if pat.isPrefixOf s then rep ++ s.drop pat.length
  else
    match s with
    | [] => []
    | c :: t => c :: specReplaceFirst t pat rep

/-- k copies of a list, concatenated; the context a repeatedly firing
empty-pattern rule builds up in front of the original context. -/
def repPow (rep : List Char) : Nat → List Char
  | 0 => []
  | k + 1 => rep ++ repPow rep k

/-- Executable version of the token grammar for a single side: an
optional bang, token characters, an optional bang, nonempty and not the
doubled marker — the validated components accepted for one side of a
rule. -/
def tokenOK (t : List Char) : Bool :=
  ((if (if t.head? = some '!' then t.tail else t).getLast? = some '!'
    then (if t.head? = some '!' then t.tail else t).dropLast
    else (if t.head? = some '!' then t.tail else t)).all isTok) &&
  decide (t ≠ []) && decide (t ≠ ['!', '!'])

/-! ## Helper lemmas: backtracking search -/

theorem firstSome_cons_some {x : α} {xs : List α} {f : α → Option β} {b : β}
    (h : f x = some b) : firstSome (x :: xs) f = some b := by
  simp [firstSome, h]

theorem firstSome_eq_some {l : List α} {f : α → Option β} {b : β} :
    firstSome l f = some b → ∃ x, x ∈ l ∧ f x = some b := by
  induction l with
  | nil => intro h; simp [firstSome] at h
  | cons x xs ih =>
    intro h
    rw [firstSome] at h
    cases hx : f x with
    | some c =>
      rw [hx] at h
      simp at h
      exact ⟨x, List.mem_cons_self x xs, by rw [hx, h]⟩
    | none =>
      rw [hx] at h
      simp at h
      obtain ⟨y, hy, hfy⟩ := ih h
      exact ⟨y, List.mem_cons_of_mem x hy, hfy⟩

theorem firstSome_isSome_of_mem {l : List α} {f : α → Option β} {x : α} {b : β}
    (hx : x ∈ l) (hb : f x = some b) : (firstSome l f).isSome = true := by
  induction l with
  | nil => cases hx
  | cons y ys ih =>
    rw [firstSome]
    cases hy : f y with
    | some c => rfl
    | none =>
      show (firstSome ys f).isSome = true
      rcases List.mem_cons.mp hx with h | h
      · rw [h] at hb; rw [hy] at hb; cases hb
      · exact ih h

/-! ## Helper lemmas: whitespace -/

theorem dropWS_cons_ws {c : Char} (t : List Char) (h : isWS c = true) :
    dropWS (c :: t) = dropWS t := by
  simp [dropWS, h]

theorem dropWS_cons_not {c : Char} (t : List Char) (h : isWS c = false) :
    dropWS (c :: t) = c :: t := by
  simp [dropWS, h]

theorem dropWS_append {w : List Char} (cs : List Char) (h : w.all isWS = true) :
    dropWS (w ++ cs) = dropWS cs := by
  induction w with
  | nil => rfl
  | cons c t ih =>
    simp only [List.all_cons, Bool.and_eq_true] at h
    rw [List.cons_append, dropWS_cons_ws _ h.1, ih h.2]

theorem dropWS_all {w : List Char} (h : w.all isWS = true) : dropWS w = [] := by
  have h2 := dropWS_append [] h
  simpa using h2

theorem dropWS_decomp (cs : List Char) :
    ∃ w, w.all isWS = true ∧ cs = w ++ dropWS cs := by
  induction cs with
  | nil => exact ⟨[], rfl, rfl⟩
  | cons c t ih =>
    cases hc : isWS c with
    | true =>
      obtain ⟨w, hw, he⟩ := ih
      refine ⟨c :: w, by simp [List.all_cons, hc, hw], ?_⟩
      rw [dropWS_cons_ws _ hc, List.cons_append]
      exact congrArg (c :: ·) he
    | false => exact ⟨[], rfl, by rw [dropWS_cons_not _ hc]; simp⟩

/-! ## Helper lemmas: capture candidates -/

/-- A stopper for a token: empty input or a head that neither belongs to
the token class nor is a bang. -/
def TokStop (r : List Char) : Prop :=
  ∀ c t, r = c :: t → (isTok c = false ∧ c ≠ '!')

theorem optBang_self_mem (cs : List Char) : ([], cs) ∈ optBang cs := by
  cases cs with
  | nil => simp [optBang]
  | cons c t =>
    by_cases h : c = '!' <;> simp [optBang, h]

theorem optBang_bang_mem (t : List Char) : (['!'], t) ∈ optBang ('!' :: t) := by
  simp [optBang]

theorem optBang_mem {p q cs : List Char} (h : (p, q) ∈ optBang cs) :
    cs = p ++ q ∧ (p = [] ∨ p = ['!']) := by
  cases cs with
  | nil =>
    simp [optBang] at h
    simp [h.1, h.2]
  | cons c t =>
    by_cases hc : c = '!'
    · subst hc
      simp [optBang] at h
      rcases h with ⟨rfl, rfl⟩ | ⟨rfl, rfl⟩ <;> simp
    · simp [optBang, hc] at h
      simp [h.1, h.2]

theorem optBang_stop {r : List Char} (hr : TokStop r) : optBang r = [([], r)] := by
  cases r with
  | nil => rfl
  | cons c t =>
    have hc := (hr c t rfl).2
    simp [optBang, hc]

theorem tokSplits_self_mem (cs : List Char) : ([], cs) ∈ tokSplits cs := by
  cases cs with
  | nil => simp [tokSplits]
  | cons c t => by_cases h : isTok c <;> simp [tokSplits, h]

theorem tokSplits_mem_of {m : List Char} (r : List Char) (h : m.all isTok = true) :
    (m, r) ∈ tokSplits (m ++ r) := by
  induction m with
  | nil => simpa using tokSplits_self_mem r
  | cons c t ih =>
    simp only [List.all_cons, Bool.and_eq_true] at h
    rw [List.cons_append, tokSplits]
    simp only [h.1, if_pos, List.mem_append, List.mem_map]
    exact Or.inl ⟨(t, r), ih h.2, rfl⟩

theorem tokSplits_mem {m q cs : List Char} (h : (m, q) ∈ tokSplits cs) :
    cs = m ++ q ∧ m.all isTok = true := by
  induction cs generalizing m q with
  | nil =>
    simp [tokSplits] at h
    simp [h.1, h.2]
  | cons c t ih =>
    by_cases hc : isTok c
    · simp only [tokSplits, hc, if_pos, List.mem_append, List.mem_map,
        List.mem_singleton] at h
      rcases h with ⟨⟨a, b⟩, hab, heq⟩ | heq
      · rw [Prod.mk.injEq] at heq
        obtain ⟨h1, h2⟩ := heq
        obtain ⟨he, ha⟩ := ih hab
        subst h1
        subst h2
        constructor
        · rw [List.cons_append, he]
        · simp [List.all_cons, hc, ha]
      · rw [Prod.mk.injEq] at heq
        obtain ⟨h1, h2⟩ := heq
        subst h1
        subst h2
        simp
    · simp [tokSplits, hc] at h
      simp [h.1, h.2]

theorem tokSplits_stop {w r : List Char} (hw : w.all isTok = true)
    (hr : TokStop r) : ∃ tl, tokSplits (w ++ r) = (w, r) :: tl := by
  induction w with
  | nil =>
    cases r with
    | nil => exact ⟨[], rfl⟩
    | cons c t =>
      have hc := (hr c t rfl).1
      exact ⟨[], by simp [tokSplits, hc]⟩
  | cons c t ih =>
    simp only [List.all_cons, Bool.and_eq_true] at hw
    obtain ⟨tl, htl⟩ := ih hw.2
    refine ⟨(tl.map (fun p => (c :: p.1, p.2))) ++ [([], c :: (t ++ r))], ?_⟩
    rw [List.cons_append, tokSplits]
    simp [hw.1, htl]

theorem tokenCands_mem {l q cs : List Char} (h : (l, q) ∈ tokenCands cs) :
    cs = l ++ q ∧ TokenShape l := by
  simp only [tokenCands, List.mem_flatMap, List.mem_map] at h
  obtain ⟨⟨b1, q1⟩, h1, ⟨m, q2⟩, h2, ⟨b2, q3⟩, h3, heq⟩ := h
  obtain ⟨he1, hb1⟩ := optBang_mem h1
  have he2 : q1 = m ++ q2 := (tokSplits_mem h2).1
  have hm : m.all isTok = true := (tokSplits_mem h2).2
  have he3 : q2 = b2 ++ q3 := (optBang_mem h3).1
  have hb2 : b2 = [] ∨ b2 = ['!'] := (optBang_mem h3).2
  have hl : b1 ++ (m ++ b2) = l := congrArg Prod.fst heq
  have hq : q3 = q := congrArg Prod.snd heq
  constructor
  · rw [he1, he2, he3, ← hq, ← hl]
    simp
  · exact ⟨b1, m, b2, hb1, hb2, hm, hl.symm⟩

theorem tokenCands_mem_of (b1 m b2 : List Char) (rest : List Char)
    (hb1 : b1 = [] ∨ b1 = ['!']) (hb2 : b2 = [] ∨ b2 = ['!'])
    (hm : m.all isTok = true) :
    (b1 ++ (m ++ b2), rest) ∈ tokenCands (b1 ++ (m ++ (b2 ++ rest))) := by
  simp only [tokenCands, List.mem_flatMap, List.mem_map]
  refine ⟨(b1, m ++ (b2 ++ rest)), ?_, (m, b2 ++ rest), tokSplits_mem_of _ hm,
    (b2, rest), ?_, rfl⟩
  · rcases hb1 with rfl | rfl
    · simpa using optBang_self_mem (m ++ (b2 ++ rest))
    · simpa using optBang_bang_mem (m ++ (b2 ++ rest))
  · rcases hb2 with rfl | rfl
    · simpa using optBang_self_mem rest
    · simpa using optBang_bang_mem rest

theorem isTok_spec {c : Char} (h : isTok c = true) :
    isWS c = false ∧ c ≠ '!' ∧ c ≠ '.' := by
  simp only [isTok, Bool.and_eq_true, Bool.not_eq_true', decide_eq_true_eq] at h
  exact ⟨h.1.1, h.1.2, h.2⟩

theorem tokenCands_stop_tok {w r : List Char} (hw : w.all isTok = true)
    (hr : TokStop r) : ∃ tl, tokenCands (w ++ r) = (w, r) :: tl := by
  have hob : optBang (w ++ r) = [([], w ++ r)] := by
    cases w with
    | nil => exact optBang_stop hr
    | cons c t =>
      have hc : isTok c = true := by
        simp only [List.all_cons, Bool.and_eq_true] at hw
        exact hw.1
      have hcb : c ≠ '!' := (isTok_spec hc).2.1
      rw [List.cons_append]
      simp [optBang, hcb]
  obtain ⟨tl, htl⟩ := tokSplits_stop hw hr
  refine ⟨tl.flatMap (fun pm => (optBang pm.2).map
    (fun p2 => ([] ++ (pm.1 ++ p2.1), p2.2))), ?_⟩
  rw [tokenCands, hob]
  simp only [List.flatMap_cons, List.flatMap_nil, List.append_nil]
  rw [htl]
  simp only [List.flatMap_cons]
  rw [optBang_stop hr]
  simp

theorem tokenCands_stop_bang {r : List Char} (hr : TokStop r) :
    ∃ tl, tokenCands ('!' :: r) = (['!'], r) :: tl := by
  have hts : ∃ tl2, tokSplits r = ([], r) :: tl2 := by
    have := tokSplits_stop (w := []) (r := r) rfl hr
    simpa using this
  obtain ⟨tl2, htl2⟩ := hts
  have hob : optBang ('!' :: r) = [(['!'], r), ([], '!' :: r)] := by
    simp [optBang]
  exact ⟨_, by
    unfold tokenCands
    rw [hob]
    simp only [List.flatMap_cons, List.flatMap_nil, List.append_nil]
    rw [htl2]
    simp only [List.flatMap_cons]
    rw [optBang_stop hr]
    rfl⟩

theorem firstSome_isSome_of_mem2 {l : List α} {f : α → Option β} {x : α}
    (hx : x ∈ l) (hb : (f x).isSome = true) : (firstSome l f).isSome = true := by
  cases hfb : f x with
  | none => rw [hfb] at hb; cases hb
  | some b => exact firstSome_isSome_of_mem hx hfb

theorem dropWS_nil_all {w : List Char} (h : dropWS w = []) : w.all isWS = true := by
  induction w with
  | nil => rfl
  | cons c t ih =>
    cases hc : isWS c with
    | true =>
      rw [dropWS_cons_ws _ hc] at h
      simp [List.all_cons, hc, ih h]
    | false => rw [dropWS_cons_not _ hc] at h; cases h

/-! ## Helper lemmas: the arrow and the dots -/

theorem arrowTail_sound {cs rest : List Char} (h : arrowTail cs = some rest) :
    ∃ w2 w3 : List Char, ∃ ac : Char, w2.all isWS = true ∧ w3.all isWS = true ∧
      (ac = '-' ∨ ac = '=') ∧ cs = w2 ++ ac :: (w3 ++ '>' :: rest) := by
  unfold arrowTail at h
  cases hd : dropWS cs with
  | nil => rw [hd] at h; cases h
  | cons c t =>
    rw [hd, arrowHead] at h
    by_cases hc : (c = '=' || c = '-') = true
    · rw [if_pos hc] at h
      cases hd2 : dropWS t with
      | nil => rw [hd2] at h; cases h
      | cons d t2 =>
        rw [hd2, gtCheck] at h
        by_cases hgt : d = '>'
        · rw [if_pos hgt] at h
          have ht2 : t2 = rest := Option.some.inj h
          obtain ⟨w2, hw2, he2⟩ := dropWS_decomp cs
          obtain ⟨w3, hw3, he3⟩ := dropWS_decomp t
          refine ⟨w2, w3, c, hw2, hw3, ?_, ?_⟩
          · rcases Bool.or_eq_true_iff.mp hc with hx | hx
            · exact Or.inr (by simpa using hx)
            · exact Or.inl (by simpa using hx)
          · rw [he2, hd]
            have he4 : t = w3 ++ '>' :: rest := by
              rw [he3, hd2, ht2, hgt]
            rw [he4]
        · rw [if_neg hgt] at h; cases h
    · rw [if_neg hc] at h; cases h

theorem arrowTail_complete {w2 w3 rest : List Char} {ac : Char}
    (hw2 : w2.all isWS = true) (hw3 : w3.all isWS = true)
    (hac : ac = '-' ∨ ac = '=') :
    arrowTail (w2 ++ ac :: (w3 ++ '>' :: rest)) = some rest := by
  have hnw : isWS ac = false := by rcases hac with rfl | rfl <;> decide
  have hcond : (ac = '=' || ac = '-') = true := by
    rcases hac with rfl | rfl <;> decide
  have hgt : isWS '>' = false := by decide
  unfold arrowTail
  rw [dropWS_append _ hw2, dropWS_cons_not _ hnw, arrowHead]
  rw [if_pos hcond]
  rw [dropWS_append _ hw3, dropWS_cons_not _ hgt, gtCheck]
  rw [if_pos rfl]

/-- A stopper for the dot star: empty input or a head that is not a
dot. -/
def DotStop (r : List Char) : Prop :=
  ∀ c t, r = c :: t → c ≠ '.'

theorem dots_split (dots : List Char) {rest : List Char}
    (hd : dots.all (fun c => c = '.') = true) (hr : DotStop rest) :
    (dots ++ rest).takeWhile (fun c => decide (c = '.')) = dots ∧
    (dots ++ rest).dropWhile (fun c => decide (c = '.')) = rest := by
  induction dots with
  | nil =>
    simp only [List.nil_append]
    cases rest with
    | nil => simp
    | cons c t =>
      have hc : c ≠ '.' := hr c t rfl
      simp [List.takeWhile_cons, List.dropWhile_cons, hc]
  | cons d dt ih =>
    simp only [List.all_cons, Bool.and_eq_true, decide_eq_true_eq] at hd
    obtain ⟨rfl, hdt⟩ := hd
    obtain ⟨h1, h2⟩ := ih hdt
    simp [List.takeWhile_cons, List.dropWhile_cons, h1, h2]

/-! ## Helper lemmas: character classes and token shapes -/

theorem ws_ne_dot {c : Char} (h : isWS c = true) : c ≠ '.' := by
  intro hc
  rw [hc] at h
  exact absurd h (by decide)

theorem ws_head_of_all {c : Char} {t : List Char} (h : (c :: t).all isWS = true) :
    isWS c = true := by
  simp only [List.all_cons, Bool.and_eq_true] at h
  exact h.1

theorem tokenShape_cons {r : List Char} {c : Char} {t : List Char}
    (hts : TokenShape r) (hct : r = c :: t) : isWS c = false ∧ c ≠ '.' := by
  obtain ⟨b1, m, b2, hb1, hb2, hm, hre⟩ := hts
  rcases hb1 with rfl | rfl
  · cases m with
    | cons a b =>
      rw [hre] at hct
      simp only [List.nil_append, List.cons_append] at hct
      injection hct with h1 h2
      subst h1
      have ha : isTok a = true := by
        simp only [List.all_cons, Bool.and_eq_true] at hm
        exact hm.1
      exact ⟨(isTok_spec ha).1, (isTok_spec ha).2.2⟩
    | nil =>
      rcases hb2 with rfl | rfl
      · rw [hre] at hct; simp at hct
      · rw [hre] at hct
        simp only [List.nil_append] at hct
        injection hct with h1 h2
        subst h1
        exact ⟨by decide, by decide⟩
  · rw [hre] at hct
    rw [List.cons_append] at hct
    injection hct with h1 h2
    subst h1
    exact ⟨by decide, by decide⟩

theorem dotStop_ws_tok {w r w6 : List Char} (hw : w.all isWS = true)
    (hts : TokenShape r) (hw6 : w6.all isWS = true) :
    DotStop (w ++ (r ++ w6)) := by
  intro c t hct
  cases w with
  | cons a b =>
    rw [List.cons_append] at hct
    injection hct with h1 h2
    subst h1
    exact ws_ne_dot (ws_head_of_all hw)
  | nil =>
    rw [List.nil_append] at hct
    cases r with
    | cons a b =>
      rw [List.cons_append] at hct
      injection hct with h1 h2
      subst h1
      exact (tokenShape_cons hts rfl).2
    | nil =>
      rw [List.nil_append] at hct
      cases w6 with
      | nil => cases hct
      | cons a b =>
        injection hct with h1 h2
        subst h1
        exact ws_ne_dot (ws_head_of_all hw6)

theorem dropWS_head_not {x : List Char} {c : Char} {t : List Char}
    (h : dropWS x = c :: t) : isWS c = false := by
  induction x with
  | nil => cases h
  | cons a b ih =>
    cases ha : isWS a with
    | true => rw [dropWS_cons_ws _ ha] at h; exact ih h
    | false =>
      rw [dropWS_cons_not _ ha] at h
      injection h with h1 h2
      subst h1
      exact ha

theorem dropWS_idem (x : List Char) : dropWS (dropWS x) = dropWS x := by
  cases hd : dropWS x with
  | nil => rfl
  | cons c t => exact dropWS_cons_not _ (dropWS_head_not hd)

theorem arrowTail_dropWS (x : List Char) :
    arrowTail (dropWS x) = arrowTail x := by
  unfold arrowTail
  rw [dropWS_idem]

theorem tokenCands_self_mem (cs : List Char) : ([], cs) ∈ tokenCands cs := by
  have h := tokenCands_mem_of [] [] [] cs (Or.inl rfl) (Or.inl rfl) rfl
  simpa using h

/-! ## Helper lemmas: the part after the arrow -/

theorem restParse_sound {rest : List Char} {d : Bool} {r : List Char}
    (h : restParse rest = some (d, r)) :
    ∃ w4 dots w5 w6 : List Char,
      w4.all isWS = true ∧ dots.all (fun c => c = '.') = true ∧
      w5.all isWS = true ∧ w6.all isWS = true ∧ TokenShape r ∧
      rest = w4 ++ (dots ++ (w5 ++ (r ++ w6))) ∧ d = !dots.isEmpty := by
  unfold restParse at h
  obtain ⟨⟨pc, pq⟩, hmem, hpr⟩ := firstSome_eq_some h
  by_cases hcond : dropWS (pc, pq).2 = []
  · rw [if_pos hcond] at hpr
    have hd : (!((dropWS rest).takeWhile (fun c => decide (c = '.'))).isEmpty) = d :=
      congrArg Prod.fst (Option.some.inj hpr)
    have hr1 : pc = r := congrArg Prod.snd (Option.some.inj hpr)
    have hsplit : dropWS ((dropWS rest).dropWhile (fun c => decide (c = '.'))) =
        pc ++ pq := (tokenCands_mem hmem).1
    have hts : TokenShape pc := (tokenCands_mem hmem).2
    obtain ⟨w4, hw4, he4⟩ := dropWS_decomp rest
    obtain ⟨w5, hw5, he5⟩ :=
      dropWS_decomp ((dropWS rest).dropWhile (fun c => decide (c = '.')))
    have hq6 : pq.all isWS = true := dropWS_nil_all hcond
    refine ⟨w4, (dropWS rest).takeWhile (fun c => decide (c = '.')), w5, pq,
      hw4, ?_, hw5, hq6, hr1 ▸ hts, ?_, hd.symm⟩
    · rw [List.all_eq_true]
      intro x hx
      simpa using List.mem_takeWhile_imp hx
    · have hTD : (dropWS rest).takeWhile (fun c => decide (c = '.')) ++
          (dropWS rest).dropWhile (fun c => decide (c = '.')) = dropWS rest :=
        List.takeWhile_append_dropWhile _ _
      calc rest = w4 ++ dropWS rest := he4
        _ = w4 ++ ((dropWS rest).takeWhile (fun c => decide (c = '.')) ++
            (dropWS rest).dropWhile (fun c => decide (c = '.'))) := by
          rw [hTD]
        _ = w4 ++ ((dropWS rest).takeWhile (fun c => decide (c = '.')) ++
            (w5 ++ (pc ++ pq))) := by
          rw [← hsplit, ← he5]
        _ = w4 ++ ((dropWS rest).takeWhile (fun c => decide (c = '.')) ++
            (w5 ++ (r ++ pq))) := by
          rw [hr1]
  · rw [if_neg hcond] at hpr
    cases hpr

theorem rhs_scan_isSome {r w6 : List Char} (b : Bool) (hts : TokenShape r)
    (hw6 : w6.all isWS = true) :
    (firstSome (tokenCands (dropWS (r ++ w6)))
      (fun pr => if dropWS pr.2 = [] then some (b, pr.1) else none)).isSome
      = true := by
  cases hr : r with
  | nil =>
    rw [List.nil_append, dropWS_all hw6]
    refine firstSome_isSome_of_mem2 (tokenCands_self_mem []) ?_
    simp [dropWS]
  | cons c t =>
    have hhd : isWS c = false := (tokenShape_cons hts hr).1
    subst hr
    rw [List.cons_append, dropWS_cons_not _ hhd]
    obtain ⟨b1, m, b2, hb1, hb2, hm, hre⟩ := hts
    have hmem := tokenCands_mem_of b1 m b2 w6 hb1 hb2 hm
    have hassoc : b1 ++ (m ++ (b2 ++ w6)) = (b1 ++ (m ++ b2)) ++ w6 := by
      simp [List.append_assoc]
    rw [hassoc, ← hre, List.cons_append] at hmem
    refine firstSome_isSome_of_mem2 hmem ?_
    simp [dropWS_all hw6]

theorem restParse_complete {w4 dots w5 r w6 : List Char}
    (hw4 : w4.all isWS = true) (hdots : dots.all (fun c => c = '.') = true)
    (hw5 : w5.all isWS = true) (hw6 : w6.all isWS = true) (hts : TokenShape r) :
    (restParse (w4 ++ (dots ++ (w5 ++ (r ++ w6))))).isSome = true := by
  unfold restParse
  rw [dropWS_append _ hw4]
  by_cases hde : dots = []
  · subst hde
    rw [List.nil_append, dropWS_append _ hw5]
    have hdw : (dropWS (r ++ w6)).dropWhile (fun c => decide (c = '.')) =
        dropWS (r ++ w6) := by
      cases hr : r with
      | nil =>
        rw [List.nil_append, dropWS_all hw6]
        rfl
      | cons c t =>
        have hhd : isWS c = false := (tokenShape_cons hts hr).1
        have hcd : c ≠ '.' := (tokenShape_cons hts hr).2
        rw [List.cons_append, dropWS_cons_not _ hhd, List.dropWhile_cons]
        simp [hcd]
    rw [hdw, dropWS_idem]
    exact rhs_scan_isSome _ hts hw6
  · obtain ⟨dc, dt, hdd⟩ := List.exists_cons_of_ne_nil hde
    have hdc : isWS dc = false := by
      have hdot : dc = '.' := by
        rw [hdd] at hdots
        simp only [List.all_cons, Bool.and_eq_true, decide_eq_true_eq] at hdots
        exact hdots.1
      rw [hdot]
      decide
    have hdw : dropWS (dots ++ (w5 ++ (r ++ w6))) = dots ++ (w5 ++ (r ++ w6)) := by
      rw [hdd, List.cons_append]
      exact dropWS_cons_not _ hdc
    rw [hdw]
    have hds : DotStop (w5 ++ (r ++ w6)) := dotStop_ws_tok hw5 hts hw6
    have hsp := dots_split _ hdots hds
    rw [hsp.1, hsp.2, dropWS_append _ hw5]
    exact rhs_scan_isSome _ hts hw6

/-! ## The regex language characterisation -/

theorem execRegex_sound {cs l : List Char} {d : Bool} {r : List Char}
    (h : execRegex cs = some (l, d, r)) :
    RegexLangMatch cs ∧ TokenShape l ∧ TokenShape r := by
  unfold execRegex at h
  obtain ⟨⟨pc, pq⟩, hmem, hpl⟩ := firstSome_eq_some h
  have hcs : dropWS cs = pc ++ pq := (tokenCands_mem hmem).1
  have htl : TokenShape pc := (tokenCands_mem hmem).2
  have hpl2 : lhsCont2 (arrowTail pq) pc = some (l, d, r) := hpl
  cases hat : arrowTail pq with
  | none => rw [hat, lhsCont2] at hpl2; cases hpl2
  | some rest2 =>
    rw [hat, lhsCont2] at hpl2
    cases hrp : restParse rest2 with
    | none => rw [hrp] at hpl2; cases hpl2
    | some q =>
      obtain ⟨qd, qr⟩ := q
      rw [hrp] at hpl2
      simp only [Option.map_some'] at hpl2
      have hl : pc = l := congrArg (fun z => z.1) (Option.some.inj hpl2)
      have hd : qd = d := congrArg (fun z => z.2.1) (Option.some.inj hpl2)
      have hr : qr = r := congrArg (fun z => z.2.2) (Option.some.inj hpl2)
      obtain ⟨w2, w3, ac, hw2, hw3, hac, he2⟩ := arrowTail_sound hat
      have hrp2 : restParse rest2 = some (d, r) := by rw [hrp, hd, hr]
      obtain ⟨w4, dots, w5, w6, hw4, hdots, hw5, hw6, htr, he3, hde⟩ :=
        restParse_sound hrp2
      obtain ⟨w1, hw1, he1⟩ := dropWS_decomp cs
      refine ⟨⟨w1, l, w2, w3, w4, dots, w5, r, w6, ac, hw1, hw2, hw3, hw4, hw5,
        hw6, hac, hl ▸ htl, htr, hdots, ?_⟩, hl ▸ htl, htr⟩
      rw [he1, hcs, hl, he2, he3]

theorem execRegex_complete {cs : List Char} (h : RegexLangMatch cs) :
    (execRegex cs).isSome = true := by
  obtain ⟨w1, l, w2, w3, w4, dots, w5, r, w6, ac, hw1, hw2, hw3, hw4, hw5, hw6,
    hac, htl, htr, hdots, heq⟩ := h
  have hrp := restParse_complete hw4 hdots hw5 hw6 htr
  have hat : arrowTail (w2 ++ ac :: (w3 ++ '>' ::
      (w4 ++ (dots ++ (w5 ++ (r ++ w6)))))) =
      some (w4 ++ (dots ++ (w5 ++ (r ++ w6)))) :=
    arrowTail_complete hw2 hw3 hac
  have hlc2 : (lhsCont2 (some (w4 ++ (dots ++ (w5 ++ (r ++ w6))))) l).isSome
      = true := by
    rw [lhsCont2]
    cases hq : restParse (w4 ++ (dots ++ (w5 ++ (r ++ w6)))) with
    | none => rw [hq] at hrp; cases hrp
    | some q => simp
  unfold execRegex
  by_cases hl0 : l = []
  · subst hl0
    have hdcs : dropWS cs = dropWS (w2 ++ ac :: (w3 ++ '>' ::
        (w4 ++ (dots ++ (w5 ++ (r ++ w6)))))) := by
      rw [heq, dropWS_append _ hw1, List.nil_append]
    refine firstSome_isSome_of_mem2 (x := ([], dropWS (w2 ++ ac :: (w3 ++ '>' ::
      (w4 ++ (dots ++ (w5 ++ (r ++ w6)))))))) ?_ ?_
    · rw [hdcs]; exact tokenCands_self_mem _
    · show (lhsCont2 (arrowTail (dropWS (w2 ++ ac :: (w3 ++ '>' ::
        (w4 ++ (dots ++ (w5 ++ (r ++ w6)))))))) []).isSome = true
      rw [arrowTail_dropWS, hat]
      exact hlc2
  · cases hl : l with
    | nil => exact absurd hl hl0
    | cons c t =>
      have hhd : isWS c = false := (tokenShape_cons htl hl).1
      have hdcs : dropWS cs = l ++ (w2 ++ ac :: (w3 ++ '>' ::
          (w4 ++ (dots ++ (w5 ++ (r ++ w6)))))) := by
        rw [heq, dropWS_append _ hw1, hl, List.cons_append,
          dropWS_cons_not _ hhd, ← List.cons_append, ← hl]
      obtain ⟨b1, m, b2, hb1, hb2, hm, hre⟩ := htl
      have hmem := tokenCands_mem_of b1 m b2 (w2 ++ ac :: (w3 ++ '>' ::
        (w4 ++ (dots ++ (w5 ++ (r ++ w6)))))) hb1 hb2 hm
      have hassoc : b1 ++ (m ++ (b2 ++ (w2 ++ ac :: (w3 ++ '>' ::
          (w4 ++ (dots ++ (w5 ++ (r ++ w6)))))))) =
          (b1 ++ (m ++ b2)) ++ (w2 ++ ac :: (w3 ++ '>' ::
          (w4 ++ (dots ++ (w5 ++ (r ++ w6)))))) := by
        simp [List.append_assoc]
      rw [hassoc, ← hre] at hmem
      refine firstSome_isSome_of_mem2 (x := (l, w2 ++ ac :: (w3 ++ '>' ::
        (w4 ++ (dots ++ (w5 ++ (r ++ w6))))))) ?_ ?_
      · rw [hdcs]; exact hmem
      · show (lhsCont2 (arrowTail (w2 ++ ac :: (w3 ++ '>' ::
          (w4 ++ (dots ++ (w5 ++ (r ++ w6))))))) l).isSome = true
        rw [hat]
        exact hlc2

/-! ## Helper lemmas: bang stripping -/

theorem no_bang_of_all_tok {l : List Char} (h : l.all isTok = true) :
    '!' ∉ l := by
  intro hm
  rw [List.all_eq_true] at h
  exact absurd ((isTok_spec (h _ hm)).2.1) (by simp)

theorem removeFirstBang_no {l : List Char} (h : '!' ∉ l) :
    removeFirstBang l = l := by
  induction l with
  | nil => rfl
  | cons c t ih =>
    simp only [List.mem_cons, not_or] at h
    rw [removeFirstBang, if_neg (fun hc => h.1 hc.symm)]
    rw [ih h.2]

theorem removeFirstBang_append {m r : List Char} (h : '!' ∉ m) :
    removeFirstBang (m ++ r) = m ++ removeFirstBang r := by
  induction m with
  | nil => rfl
  | cons c t ih =>
    simp only [List.mem_cons, not_or] at h
    rw [List.cons_append, removeFirstBang, if_neg (fun hc => h.1 hc.symm)]
    rw [ih h.2, List.cons_append]

theorem stripBangs_shape {b1 m b2 : List Char}
    (hb1 : b1 = [] ∨ b1 = ['!']) (hb2 : b2 = [] ∨ b2 = ['!'])
    (hm : m.all isTok = true) : stripBangs (b1 ++ (m ++ b2)) = m := by
  have hnb : '!' ∉ m := no_bang_of_all_tok hm
  unfold stripBangs
  rcases hb1 with rfl | rfl
  · rw [List.nil_append, removeFirstBang_append hnb]
    rcases hb2 with rfl | rfl
    · rw [removeFirstBang, List.append_nil, removeFirstBang_no hnb]
    · rw [show removeFirstBang ['!'] = [] from rfl, List.append_nil,
        removeFirstBang_no hnb]
  · rw [List.cons_append, removeFirstBang, if_pos rfl, List.nil_append,
      removeFirstBang_append hnb]
    rcases hb2 with rfl | rfl
    · rw [removeFirstBang, List.append_nil]
    · rw [show removeFirstBang ['!'] = [] from rfl, List.append_nil]

theorem stripBangs_of_shape {t : List Char} (h : TokenShape t) :
    ∃ m, stripBangs t = m ∧ m.all isTok = true ∧
      t.filter (fun c => !(c = '!' : Bool)) = m := by
  obtain ⟨b1, m, b2, hb1, hb2, hm, rfl⟩ := h
  refine ⟨m, stripBangs_shape hb1 hb2 hm, hm, ?_⟩
  have hf : m.filter (fun c => !(c = '!' : Bool)) = m := by
    rw [List.filter_eq_self]
    intro a ha
    rw [List.all_eq_true] at hm
    simpa using (isTok_spec (hm a ha)).2.1
  rcases hb1 with rfl | rfl <;> rcases hb2 with rfl | rfl <;>
    simp [List.filter_append, hf]

/-! ## Helper lemmas: compile of a rendered statement -/

/-- Tokens that appear as one rendered side: the bang marker alone, or a
nonempty all-token-character string. -/
def GoodToken (t : List Char) : Prop :=
  t = ['!'] ∨ (t.all isTok = true ∧ t ≠ [])

theorem goodToken_render {w : List Char} (h : w.all isTok = true) :
    GoodToken (renderToken w) := by
  cases w with
  | nil => exact Or.inl rfl
  | cons c t =>
    right
    constructor
    · rw [show renderToken (c :: t) = c :: t from rfl]
      exact h
    · simp [renderToken]

theorem goodToken_ne_nil {t : List Char} (g : GoodToken t) : t ≠ [] := by
  rcases g with rfl | ⟨_, h⟩
  · simp
  · exact h

theorem goodToken_head {t : List Char} {c : Char} {u : List Char}
    (g : GoodToken t) (h : t = c :: u) : isWS c = false ∧ c ≠ '.' := by
  rcases g with rfl | ⟨ha, _⟩
  · injection h with h1 h2
    subst h1
    exact ⟨by decide, by decide⟩
  · rw [h] at ha
    simp only [List.all_cons, Bool.and_eq_true] at ha
    exact ⟨(isTok_spec ha.1).1, (isTok_spec ha.1).2.2⟩

theorem goodToken_cands {t : List Char} (g : GoodToken t) {r : List Char}
    (hr : TokStop r) : ∃ tl, tokenCands (t ++ r) = (t, r) :: tl := by
  rcases g with rfl | ⟨ha, _⟩
  · rw [show (['!'] : List Char) ++ r = '!' :: r from rfl]
    exact tokenCands_stop_bang hr
  · exact tokenCands_stop_tok ha hr

theorem tokStop_space (xs : List Char) : TokStop (' ' :: xs) := by
  intro c t hct
  injection hct with h1 h2
  subst h1
  exact ⟨by decide, by decide⟩

theorem tokStop_nil : TokStop ([] : List Char) := by
  intro c t hct
  cases hct

theorem dotStop_space (xs : List Char) : DotStop (' ' :: xs) := by
  intro c t hct
  injection hct with h1 h2
  subst h1
  decide

theorem restParse_sep (dotPart : List Char) {tok2 : List Char}
    (hdp : dotPart = [] ∨ dotPart = ['.']) (g2 : GoodToken tok2) :
    restParse (dotPart ++ (' ' :: tok2)) = some (!dotPart.isEmpty, tok2) := by
  obtain ⟨c2, u2, ht2⟩ := List.exists_cons_of_ne_nil (goodToken_ne_nil g2)
  have hh2 : isWS c2 = false := (goodToken_head g2 ht2).1
  have hd2 : c2 ≠ '.' := (goodToken_head g2 ht2).2
  have hdtok : dropWS tok2 = tok2 := by
    rw [ht2]
    exact dropWS_cons_not _ hh2
  have hstop2 : DotStop tok2 := by
    intro c t hct
    rw [ht2] at hct
    injection hct with h1 h2
    subst h1
    exact hd2
  obtain ⟨tl2, htl2⟩ := goodToken_cands g2 tokStop_nil
  rw [List.append_nil] at htl2
  have hscan : firstSome (tokenCands tok2)
      (fun pr => if dropWS pr.2 = [] then
        some (!dotPart.isEmpty, pr.1) else none) =
      some (!dotPart.isEmpty, tok2) := by
    rw [htl2]
    apply firstSome_cons_some
    simp [dropWS]
  unfold restParse
  rcases hdp with rfl | rfl
  · rw [List.nil_append, dropWS_cons_ws _ (by decide), hdtok]
    have hsp := dots_split [] rfl hstop2
    rw [List.nil_append] at hsp
    rw [hsp.1, hsp.2, hdtok]
    exact hscan
  · rw [show (['.'] : List Char) ++ (' ' :: tok2) = '.' :: (' ' :: tok2)
      from rfl]
    rw [dropWS_cons_not _ (by decide)]
    have hsp := dots_split ['.'] rfl (dotStop_space tok2)
    rw [show (['.'] : List Char) ++ (' ' :: tok2) = '.' :: (' ' :: tok2)
      from rfl] at hsp
    rw [hsp.1, hsp.2, dropWS_cons_ws _ (by decide), hdtok]
    exact hscan

theorem execRegex_sep (dotPart : List Char) {tok1 tok2 : List Char}
    (hdp : dotPart = [] ∨ dotPart = ['.'])
    (g1 : GoodToken tok1) (g2 : GoodToken tok2) :
    execRegex (tok1 ++ (' ' :: '-' :: '>' :: (dotPart ++ (' ' :: tok2)))) =
      some (tok1, !dotPart.isEmpty, tok2) := by
  have hstop : TokStop (' ' :: '-' :: '>' :: (dotPart ++ (' ' :: tok2))) :=
    tokStop_space _
  obtain ⟨tl, htl⟩ := goodToken_cands g1 hstop
  obtain ⟨c1, u1, ht1⟩ := List.exists_cons_of_ne_nil (goodToken_ne_nil g1)
  have hh1 : isWS c1 = false := (goodToken_head g1 ht1).1
  have hdrop : dropWS (tok1 ++ (' ' :: '-' :: '>' ::
      (dotPart ++ (' ' :: tok2)))) =
      tok1 ++ (' ' :: '-' :: '>' :: (dotPart ++ (' ' :: tok2))) := by
    rw [ht1, List.cons_append]
    exact dropWS_cons_not _ hh1
  have hat : arrowTail (' ' :: '-' :: '>' :: (dotPart ++ (' ' :: tok2))) =
      some (dotPart ++ (' ' :: tok2)) :=
    arrowTail_complete (show ([' '] : List Char).all isWS = true by decide)
      (show ([] : List Char).all isWS = true from rfl) (Or.inl rfl)
  unfold execRegex
  rw [hdrop, htl]
  apply firstSome_cons_some
  show lhsCont2 (arrowTail (' ' :: '-' :: '>' :: (dotPart ++ (' ' :: tok2))))
    tok1 = some (tok1, !dotPart.isEmpty, tok2)
  rw [hat, lhsCont2, restParse_sep dotPart hdp g2]
  rfl

theorem stripBangs_render {w : List Char} (h : w.all isTok = true) :
    stripBangs (renderToken w) = w := by
  cases w with
  | nil => rfl
  | cons c t =>
    have hr : renderToken (c :: t) = c :: t := rfl
    rw [hr]
    unfold stripBangs
    rw [removeFirstBang_no (no_bang_of_all_tok h),
      removeFirstBang_no (no_bang_of_all_tok h)]

theorem renderToken_ne_bangbang {w : List Char} (h : w.all isTok = true) :
    renderToken w ≠ ['!', '!'] := by
  cases w with
  | nil => decide
  | cons c t =>
    have hr : renderToken (c :: t) = c :: t := rfl
    rw [hr]
    intro he
    injection he with h1 h2
    have hc : isTok c = true := by
      simp only [List.all_cons, Bool.and_eq_true] at h
      exact h.1
    exact absurd h1 (isTok_spec hc).2.1

theorem compile_render_core {w1 w2 : List Char} (b : Bool)
    (h1 : w1.all isTok = true) (h2 : w2.all isTok = true) :
    compile (Statement.render ⟨w1, w2, b⟩) = some ⟨w1, w2, b⟩ := by
  have hrender : Statement.render ⟨w1, w2, b⟩ =
      renderToken w1 ++ (' ' :: '-' :: '>' ::
        ((if b then ['.'] else []) ++ (' ' :: renderToken w2))) := by
    unfold Statement.render
    cases b
    · rw [show (" -> ".toList) = [' ', '-', '>', ' '] from rfl]
      simp [List.append_assoc]
    · rw [show (" ->. ".toList) = [' ', '-', '>', '.', ' '] from rfl]
      simp [List.append_assoc]
  have hexec := execRegex_sep (if b then ['.'] else [])
    (by cases b <;> simp) (goodToken_render h1) (goodToken_render h2)
  have hb : (!(if b then ['.'] else ([] : List Char)).isEmpty) = b := by
    cases b <;> rfl
  rw [hb] at hexec
  rw [hrender]
  unfold compile
  rw [hexec, compile2]
  unfold compileChecks
  have hl1 : ¬ (renderToken w1).length < 1 := by
    cases w1 <;> simp [renderToken]
  have hl2 : ¬ (renderToken w2).length < 1 := by
    cases w2 <;> simp [renderToken]
  rw [if_neg hl1, if_neg hl2, if_neg (renderToken_ne_bangbang h1),
    if_neg (renderToken_ne_bangbang h2)]
  unfold Statement.make
  rw [stripBangs_render h1, stripBangs_render h2]

theorem compile_valid {s : List Char} {st : Statement}
    (h : compile s = some st) :
    st.«from».all isTok = true ∧ st.«to».all isTok = true := by
  unfold compile at h
  cases he : execRegex s with
  | none => rw [he, compile2] at h; cases h
  | some trip =>
    obtain ⟨l, d, r⟩ := trip
    rw [he, compile2] at h
    unfold compileChecks at h
    by_cases c1 : l.length < 1
    · rw [if_pos c1] at h; cases h
    · rw [if_neg c1] at h
      by_cases c2 : r.length < 1
      · rw [if_pos c2] at h; cases h
      · rw [if_neg c2] at h
        by_cases c3 : l = ['!', '!']
        · rw [if_pos c3] at h; cases h
        · rw [if_neg c3] at h
          by_cases c4 : r = ['!', '!']
          · rw [if_pos c4] at h; cases h
          · rw [if_neg c4] at h
            have hst : Statement.make l r d = st := Option.some.inj h
            obtain ⟨hlang, hstl, hstr⟩ := execRegex_sound he
            obtain ⟨m1, hm1, ha1, _⟩ := stripBangs_of_shape hstl
            obtain ⟨m2, hm2, ha2, _⟩ := stripBangs_of_shape hstr
            rw [← hst]
            unfold Statement.make
            constructor
            · rw [show (Statement.mk (stripBangs l) (stripBangs r) d).«from» =
                stripBangs l from rfl, hm1]
              exact ha1
            · rw [show (Statement.mk (stripBangs l) (stripBangs r) d).«to» =
                stripBangs r from rfl, hm2]
              exact ha2

theorem tokenOK_shape {t : List Char} (h : tokenOK t = true) :
    TokenShape t ∧ (stripBangs t).all isTok = true := by
  unfold tokenOK at h
  simp only [Bool.and_eq_true, decide_eq_true_eq] at h
  obtain ⟨⟨hmain, hne⟩, hnq⟩ := h
  have hshape : TokenShape t := by
    by_cases hh : t.head? = some '!'
    · rw [if_pos hh] at hmain
      cases t with
      | nil => cases hh
      | cons c u =>
        have hc : c = '!' := by
          rw [List.head?_cons] at hh
          exact (Option.some.inj hh)
        subst hc
        rw [show ('!' :: u).tail = u from rfl] at hmain
        by_cases hl : u.getLast? = some '!'
        · rw [if_pos hl] at hmain
          obtain ⟨v, hv⟩ : ∃ v, u = v ++ ['!'] := by
            cases hu : u with
            | nil => rw [hu] at hl; cases hl
            | cons d w =>
              refine ⟨u.dropLast, ?_⟩
              have hgl := List.getLast?_eq_getLast (l := u) (by rw [hu]; simp)
              rw [hgl] at hl
              have := List.dropLast_append_getLast
                (l := u) (by rw [hu]; simp)
              rw [Option.some.inj hl] at this
              rw [hu] at this ⊢
              exact this.symm
          refine ⟨['!'], u.dropLast, ['!'], Or.inr rfl, Or.inr rfl, hmain, ?_⟩
          rw [hv]
          simp
        · rw [if_neg hl] at hmain
          have hnb : '!' ∉ u := by
            intro hmem
            exact absurd ((isTok_spec (List.all_eq_true.mp hmain _ hmem)).2.1)
              (by simp)
          exact ⟨['!'], u, [], Or.inr rfl, Or.inl rfl, hmain, by simp⟩
    · rw [if_neg hh] at hmain
      by_cases hl : t.getLast? = some '!'
      · rw [if_pos hl] at hmain
        obtain ⟨v, hv⟩ : ∃ v, t = v ++ ['!'] := by
          cases hu : t with
          | nil => rw [hu] at hl; cases hl
          | cons d w =>
            refine ⟨t.dropLast, ?_⟩
            have hgl := List.getLast?_eq_getLast (l := t) (by rw [hu]; simp)
            rw [hgl] at hl
            have := List.dropLast_append_getLast (l := t) (by rw [hu]; simp)
            rw [Option.some.inj hl] at this
            rw [hu] at this ⊢
            exact this.symm
        refine ⟨[], t.dropLast, ['!'], Or.inl rfl, Or.inr rfl, hmain, ?_⟩
        rw [hv]
        simp
      · rw [if_neg hl] at hmain
        exact ⟨[], t, [], Or.inl rfl, Or.inl rfl, hmain, by simp⟩
  refine ⟨hshape, ?_⟩
  obtain ⟨m, hm, ha, _⟩ := stripBangs_of_shape hshape
  rw [hm]
  exact ha

/-! ## Helper lemmas: the runner -/

theorem stepApply_none {alg : List Statement} {t : Runner}
    (h : findApplicable alg t.context = none) :
    stepApply alg t = (⟨t.context, t.steps, true⟩, none) := by
  unfold stepApply
  rw [h]

theorem stepApply_some {alg : List Statement} {t : Runner} {s : Statement}
    (h : findApplicable alg t.context = some s) :
    stepApply alg t = (⟨jsReplace t.context s.«from» s.«to»,
      t.steps ++ [⟨jsReplace t.context s.«from» s.«to», some s⟩],
      s.closing⟩, some s) := by
  unfold stepApply
  rw [h]

theorem step_not_done {alg : List Statement} {st : Runner}
    (h : st.done = false) :
    step alg st = stepApply alg
      (if st.steps.length < 1 then
        ⟨st.context, st.steps ++ [⟨st.context, none⟩], st.done⟩
      else st) := by
  unfold step
  rw [if_neg (by simp [h])]

theorem step_not_done_ne {alg : List Statement} {st : Runner}
    (h : st.done = false) (h2 : st.steps ≠ []) :
    step alg st = stepApply alg st := by
  rw [step_not_done h, if_neg (by simp [List.length_pos_iff_ne_nil, h2])]

/-- The history invariant of claim C4: one more entry than applied
steps, the first entry records the initial context with no statement,
and the last entry records the current context. -/
def HistInv (c : List Char) (st : Runner) : Prop :=
  st.steps.length = appliedCount st.steps + 1 ∧
  st.steps.head? = some ⟨c, none⟩ ∧
  (st.steps.getLast?).map StepRec.context = some st.context

theorem appliedCount_append_applied (l : List StepRec) (e : StepRec)
    (h : e.statement.isSome = true) :
    appliedCount (l ++ [e]) = appliedCount l + 1 := by
  unfold appliedCount
  rw [List.countP_append]
  simp [List.countP_cons, h]

theorem histInv_steps_ne_nil {c : List Char} {st : Runner}
    (h : HistInv c st) : st.steps ≠ [] := by
  intro he
  have h1 := h.1
  rw [he] at h1
  simp [appliedCount] at h1

theorem step_inv {g : List Statement} {st : Runner} {c : List Char}
    (hq : HistInv c st) (hd : st.done = false) :
    HistInv c (step g st).1 ∧
    appliedCount (step g st).1.steps =
      appliedCount st.steps +
        (if (step g st).2.isSome then 1 else 0) := by
  rw [step_not_done_ne hd (histInv_steps_ne_nil hq)]
  obtain ⟨hlen, hhead, hlast⟩ := hq
  cases hfa : findApplicable g st.context with
  | none =>
    rw [stepApply_none hfa]
    exact ⟨⟨hlen, hhead, hlast⟩, by simp⟩
  | some s =>
    rw [stepApply_some hfa]
    have hne := histInv_steps_ne_nil ⟨hlen, hhead, hlast⟩
    constructor
    · refine ⟨?_, ?_, ?_⟩
      · show (st.steps ++ [_]).length = appliedCount (st.steps ++ [_]) + 1
        rw [List.length_append,
          appliedCount_append_applied _ _ (by simp), hlen]
        simp
      · show (st.steps ++ [_]).head? = some ⟨c, none⟩
        cases hst : st.steps with
        | nil => exact absurd hst hne
        | cons e es => simp [hst] at hhead ⊢; exact hhead
      · show ((st.steps ++ [_]).getLast?).map StepRec.context = _
        rw [List.getLast?_concat]
        rfl
    · show appliedCount (st.steps ++ [_]) = _
      rw [appliedCount_append_applied _ _ (by simp)]
      simp

theorem step_init_inv (alg : List Statement) (c : List Char) :
    HistInv c (step alg (initRunner c)).1 ∧
    appliedCount (step alg (initRunner c)).1.steps =
      (if (step alg (initRunner c)).2.isSome then 1 else 0) := by
  have h0 : step alg (initRunner c) =
      stepApply alg ⟨c, [⟨c, none⟩], false⟩ := by
    rw [step_not_done rfl]
    rfl
  rw [h0]
  cases hfa : findApplicable alg (Runner.mk c [⟨c, none⟩] false).context with
  | none =>
    rw [stepApply_none hfa]
    refine ⟨⟨?_, ?_, ?_⟩, ?_⟩ <;> simp [appliedCount]
  | some s =>
    rw [stepApply_some hfa]
    refine ⟨⟨?_, ?_, ?_⟩, ?_⟩ <;> simp [appliedCount, List.countP_cons]

theorem runCount_inv {alg : List Statement} {c : List Char} :
    ∀ (n : Nat) (st : Runner), HistInv c st →
    HistInv c (runCount alg n st).1 ∧
    appliedCount (runCount alg n st).1.steps =
      appliedCount st.steps + (runCount alg n st).2 := by
  intro n
  induction n with
  | zero => intro st hq; exact ⟨hq, by simp [runCount]⟩
  | succ k ih =>
    intro st hq
    unfold runCount
    cases hd : st.done with
    | true => rw [if_pos (by simp [hd])]; exact ⟨hq, by simp⟩
    | false =>
      rw [if_neg (by simp [hd])]
      obtain ⟨hq2, hcnt⟩ := step_inv (g := alg) hq hd
      obtain ⟨hq3, hcnt2⟩ := ih (step alg st).1 hq2
      refine ⟨hq3, ?_⟩
      rw [hcnt2, hcnt]
      omega

/-! ## Helper lemmas: empty patterns and replacements -/

theorem searchMatches_nil (s : List Char) : searchMatches [] s = true := by
  unfold searchMatches toAtoms
  cases s with
  | nil => simp [matchAnywhere, matchFrom]
  | cons c t => simp [matchAnywhere, matchFrom]

theorem firstOccur_nil (s : List Char) : firstOccur [] s = some 0 := by
  cases s with
  | nil => rfl
  | cons c t =>
    unfold firstOccur
    rw [if_pos (by simp [List.isPrefixOf])]

theorem substDollar_no {m b a rep : List Char} (h : '$' ∉ rep) :
    substDollar m b a rep = rep := by
  induction rep with
  | nil => rfl
  | cons c t ih =>
    simp only [List.mem_cons, not_or] at h
    unfold substDollar
    rw [if_neg (fun hc => h.1 hc.symm)]
    rw [ih h.2]

theorem jsReplace_nil_pat {s rep : List Char} (h : '$' ∉ rep) :
    jsReplace s [] rep = rep ++ s := by
  unfold jsReplace
  rw [firstOccur_nil]
  simp [substDollar_no h]

theorem compileChecks_some {l : List Char} {d : Bool} {r : List Char}
    {st : Statement} (h : compileChecks l d r = some st) :
    st = Statement.make l r d := by
  unfold compileChecks at h
  by_cases c1 : l.length < 1
  · rw [if_pos c1] at h; cases h
  · rw [if_neg c1] at h
    by_cases c2 : r.length < 1
    · rw [if_pos c2] at h; cases h
    · rw [if_neg c2] at h
      by_cases c3 : l = ['!', '!']
      · rw [if_pos c3] at h; cases h
      · rw [if_neg c3] at h
        by_cases c4 : r = ['!', '!']
        · rw [if_pos c4] at h; cases h
        · rw [if_neg c4] at h
          exact (Option.some.inj h).symm

/-! ## Claim theorems -/

/-- C1 (code bug evidence): with the compiled rule pattern a-star and
the context zzz, step() applies the rule — String.search coerces the
pattern to a regular expression, and the regex a-star matches the empty
string — even though the pattern does not occur in the context as a
substring, and the literal replace then leaves the context unchanged.
The claim (and the comment in the source) say a rule is applied exactly
when its pattern occurs in the context as a substring. -/
theorem c1_regex_search_bug :
    compile ("a* -> q".toList) =
      some ⟨"a*".toList, "q".toList, false⟩ ∧
    (step [(⟨"a*".toList, "q".toList, false⟩ : Statement)]
      (initRunner ("zzz".toList))).2 =
      some ⟨"a*".toList, "q".toList, false⟩ ∧
    (step [(⟨"a*".toList, "q".toList, false⟩ : Statement)]
      (initRunner ("zzz".toList))).1.context = "zzz".toList ∧
    occursSub ("a*".toList) ("zzz".toList) = false := by decide

/-- C2 (code bug evidence): with pattern a, replacement dollar-ampersand-b
and context a, step() commits the context ab — String.replace expands the
dollar-ampersand escape to the matched substring — while the claim says
the new context is the old one with the first occurrence of the pattern
replaced by the replacement string itself, which would give
dollar-ampersand-b. -/
theorem c2_dollar_replacement_bug :
    (step [(⟨"a".toList, "$&b".toList, false⟩ : Statement)]
      (initRunner ("a".toList))).2 =
      some ⟨"a".toList, "$&b".toList, false⟩ ∧
    (step [(⟨"a".toList, "$&b".toList, false⟩ : Statement)]
      (initRunner ("a".toList))).1.context = "ab".toList ∧
    specReplaceFirst ("a".toList) ("a".toList) ("$&b".toList) =
      "$&b".toList ∧
    "ab".toList ≠ "$&b".toList := by decide

/-- C3: for a running engine, after step() the engine is halted exactly
when the applied statement closes or no statement matched; in the
no-match case step() returns none and the context is unchanged, and
when a statement is applied the rewrite is committed (also when it is a
closing statement, before halting). -/
theorem c3_halting (alg : List Statement) (st : Runner)
    (h : st.done = false) :
    ((step alg st).1.done = true ↔
      ((∃ s, (step alg st).2 = some s ∧ s.closing = true) ∨
        (step alg st).2 = none)) ∧
    ((step alg st).2 = none →
      (step alg st).1.context = st.context ∧ (step alg st).1.done = true) ∧
    (findApplicable alg st.context = none → (step alg st).2 = none) ∧
    (∀ s, (step alg st).2 = some s →
      (step alg st).1.context = jsReplace st.context s.«from» s.«to» ∧
      (step alg st).1.done = s.closing) := by
  rw [step_not_done h]
  by_cases hl : st.steps.length < 1
  · rw [if_pos hl]
    cases hfa : findApplicable alg st.context with
    | none =>
      rw [stepApply_none (t := Runner.mk st.context
        (st.steps ++ [StepRec.mk st.context none]) st.done) hfa]
      simp
    | some s =>
      rw [stepApply_some (t := Runner.mk st.context
        (st.steps ++ [StepRec.mk st.context none]) st.done) hfa]
      simp [hfa]
  · rw [if_neg hl]
    cases hfa : findApplicable alg st.context with
    | none =>
      rw [stepApply_none hfa]
      simp
    | some s =>
      rw [stepApply_some hfa]
      simp [hfa]

/-- Witness for C3 at a concrete input: natural termination on the
ruleset with the single rule z to y and the context abc. -/
theorem c3_halting_witness :
    (step [(⟨"z".toList, "y".toList, false⟩ : Statement)]
      (initRunner ("abc".toList))).1.done = true :=
  (c3_halting _ _ rfl).1.mpr (Or.inr (by decide))

/-- C4: when a run from the initial runner halts within the given fuel,
the history has one more entry than the number of applied steps, its
first entry records the initial context with no statement, and its last
entry records the final context. -/
theorem c4_history (alg : List Statement) (c : List Char) (fuel : Nat)
    (h : (runCount alg fuel (initRunner c)).1.done = true) :
    (runCount alg fuel (initRunner c)).1.steps.length =
      (runCount alg fuel (initRunner c)).2 + 1 ∧
    (runCount alg fuel (initRunner c)).1.steps.head? = some ⟨c, none⟩ ∧
    ((runCount alg fuel (initRunner c)).1.steps.getLast?).map
      StepRec.context = some (runCount alg fuel (initRunner c)).1.context := by
  cases fuel with
  | zero => simp [runCount, initRunner] at h
  | succ n =>
    have he : runCount alg (n + 1) (initRunner c) =
        ((runCount alg n (step alg (initRunner c)).1).1,
          (if (step alg (initRunner c)).2.isSome then 1 else 0) +
            (runCount alg n (step alg (initRunner c)).1).2) := by
      rw [runCount]
      rw [if_neg (by simp [initRunner])]
    rw [he]
    obtain ⟨hq1, hcnt1⟩ := step_init_inv alg c
    obtain ⟨hq2, hcnt2⟩ := runCount_inv n (step alg (initRunner c)).1 hq1
    obtain ⟨hlen, hhead, hlast⟩ := hq2
    refine ⟨?_, hhead, hlast⟩
    show (runCount alg n (step alg (initRunner c)).1).1.steps.length = _
    rw [hlen, hcnt2, hcnt1]

/-- Witness for C4 at a concrete input: the single rule a to b on
context a fires once and halts, leaving two history entries. -/
theorem c4_history_witness :
    (runCount [(⟨"a".toList, "b".toList, false⟩ : Statement)] 5
      (initRunner ("a".toList))).1.steps.length =
    (runCount [(⟨"a".toList, "b".toList, false⟩ : Statement)] 5
      (initRunner ("a".toList))).2 + 1 :=
  (c4_history _ _ 5 (by decide)).1

/-- C5: a statement built by compile, or by the constructor from
components accepted by the token grammar, renders with toString so that
compiling the rendering gives back an equal statement (pattern,
replacement and closing flag all preserved); empty sides render as the
bang marker and closing statements render with a dot after the arrow,
as Statement.render records. -/
theorem c5_roundtrip (r : Statement)
    (h : (∃ s, compile s = some r) ∨
      (∃ t1 t2 : List Char, ∃ b : Bool, tokenOK t1 = true ∧
        tokenOK t2 = true ∧ r = Statement.make t1 t2 b)) :
    compile r.render = some r := by
  obtain ⟨f, t, cl⟩ := r
  have hv : f.all isTok = true ∧ t.all isTok = true := by
    rcases h with ⟨s, hs⟩ | ⟨t1, t2, b, h1, h2, he⟩
    · exact compile_valid hs
    · have hf : f = stripBangs t1 := congrArg Statement.«from» he
      have ht : t = stripBangs t2 := congrArg Statement.«to» he
      rw [hf, ht]
      exact ⟨(tokenOK_shape h1).2, (tokenOK_shape h2).2⟩
  exact compile_render_core cl hv.1 hv.2

/-- Witness for C5 at a concrete input: the compiled closing rule a to
b round-trips through rendering. -/
theorem c5_roundtrip_witness :
    compile (Statement.render ⟨"a".toList, "b".toList, true⟩) =
      some ⟨"a".toList, "b".toList, true⟩ :=
  c5_roundtrip _ (Or.inl ⟨"a ->. b".toList, by decide⟩)

/-- C6 counterexample: the claim says compile fails exactly on texts
outside the grammar with single optional dot, literal two-character
arrow and maximal non-whitespace tokens.  The code accepts two dots
after the arrow, which that grammar rejects, and rejects a dot inside a
token, which that grammar accepts. -/
theorem c6_claimed_grammar_cex :
    claimedOk ("a ->.. b".toList) = false ∧
    (compile ("a ->.. b".toList)).isSome = true ∧
    claimedOk ("a.b -> c".toList) = true ∧
    compile ("a.b -> c".toList) = none := by decide

/-- C6 amended: the regex accepts exactly the decompositions into
whitespace, a token (an optional bang, a run of characters other than
whitespace, bang and dot, an optional bang), whitespace, a minus or
equals sign, whitespace, a greater-than sign, any number of dots,
whitespace, a token and whitespace; compile then rejects an empty or
doubled-bang capture.  In particular the five statements the claim
lists fail, two dots compile as a terminating rule, whitespace may
separate the two arrow characters, and a dot or an interior bang in a
token is rejected. -/
theorem c6_amended :
    (∀ cs : List Char, (execRegex cs).isSome = true ↔ RegexLangMatch cs) ∧
    compile ("invalid statement".toList) = none ∧
    compile ("a -> ".toList) = none ∧
    compile (" -> b".toList) = none ∧
    compile ("!! -> b".toList) = none ∧
    compile ("a -> !!".toList) = none ∧
    compile ("a ->.. b".toList) = some ⟨"a".toList, "b".toList, true⟩ ∧
    compile ("a - > b".toList) = some ⟨"a".toList, "b".toList, false⟩ ∧
    compile ("a.b -> c".toList) = none ∧
    compile ("a!b -> c".toList) = none := by
  refine ⟨?_, by decide, by decide, by decide, by decide, by decide,
    by decide, by decide, by decide, by decide⟩
  intro cs
  constructor
  · intro h
    obtain ⟨⟨l, d, r⟩, he⟩ := Option.isSome_iff_exists.mp h
    exact (execRegex_sound he).1
  · exact execRegex_complete

/-- Witness for C6 at a concrete input: the statement a arrow b is in
the regex language. -/
theorem c6_amended_witness : RegexLangMatch ("a -> b".toList) :=
  (c6_amended.1 ("a -> b".toList)).mp (by decide)

/-- C7: for every accepted statement, the stored pattern and
replacement are the regex captures with every bang marker removed (a
capture consisting solely of the marker becomes empty), and in
particular compiling bang to x gives the empty pattern and compiling x
to bang gives the empty replacement. -/
theorem c7_bang_strip :
    (∀ (cs l : List Char) (d : Bool) (r : List Char) (st : Statement),
      execRegex cs = some (l, d, r) → compile cs = some st →
      st.«from» = l.filter (fun c => !(c = '!' : Bool)) ∧
      st.«to» = r.filter (fun c => !(c = '!' : Bool)) ∧
      st.closing = d) ∧
    compile ("! -> x".toList) = some ⟨[], "x".toList, false⟩ ∧
    compile ("x -> !".toList) = some ⟨"x".toList, [], false⟩ := by
  refine ⟨?_, by decide, by decide⟩
  intro cs l d r st he hc
  unfold compile at hc
  rw [he, compile2] at hc
  have hst := compileChecks_some hc
  obtain ⟨_, hsl, hsr⟩ := execRegex_sound he
  obtain ⟨m1, hm1, _, hf1⟩ := stripBangs_of_shape hsl
  obtain ⟨m2, hm2, _, hf2⟩ := stripBangs_of_shape hsr
  rw [hst]
  unfold Statement.make
  refine ⟨?_, ?_, rfl⟩
  · show stripBangs l = _
    rw [hm1, hf1]
  · show stripBangs r = _
    rw [hm2, hf2]

/-- Witness for C7 at a concrete input: compiling the statement with a
bang-wrapped LHS token strips the markers from the stored pattern. -/
theorem c7_bang_strip_witness :
    (⟨"a".toList, "b".toList, false⟩ : Statement).«from» =
      ("!a!".toList).filter (fun c => !(c = '!' : Bool)) :=
  (c7_bang_strip.1 ("!a! -> b".toList) ("!a!".toList) false ("b".toList)
    ⟨"a".toList, "b".toList, false⟩ (by decide) (by decide)).1

/-- C8 (code bug evidence): addStatement with position minus one on a
two-rule set inserts the new rule before the last element, giving
[first, new, second], not at the front as the claim (and the source
comment) state; the relational guards in the source compare the
statement object instead of the position, so every supplied position
takes the slice branch and negative positions are resolved relative to
the end of the array. -/
theorem c8_addStatement_negative_bug :
    addStatement
        [⟨"1".toList, "1".toList, false⟩, ⟨"2".toList, "2".toList, false⟩]
        ⟨"3".toList, "3".toList, false⟩ (some (-1)) =
      [⟨"1".toList, "1".toList, false⟩, ⟨"3".toList, "3".toList, false⟩,
        ⟨"2".toList, "2".toList, false⟩] ∧
    ([⟨"1".toList, "1".toList, false⟩, ⟨"3".toList, "3".toList, false⟩,
        ⟨"2".toList, "2".toList, false⟩] :
      List Statement) ≠
      [⟨"3".toList, "3".toList, false⟩, ⟨"1".toList, "1".toList, false⟩,
        ⟨"2".toList, "2".toList, false⟩] := by decide

/-- C9 (code bug evidence): removeStatement at position one on a
three-rule set returns the right rule but rebuilds the array as
slice(0, 1) concatenated with slice(0, 2) — the second slice starts at
0 in the source — leaving [first, first, second] instead of removing
the middle rule and keeping [first, third]. -/
theorem c9_removeStatement_middle_bug :
    removeStatement
        [⟨"1".toList, "1".toList, false⟩, ⟨"2".toList, "2".toList, false⟩,
          ⟨"3".toList, "3".toList, false⟩] (some 1) =
      ([⟨"1".toList, "1".toList, false⟩, ⟨"1".toList, "1".toList, false⟩,
          ⟨"2".toList, "2".toList, false⟩],
        some ⟨"2".toList, "2".toList, false⟩) ∧
    ([⟨"1".toList, "1".toList, false⟩, ⟨"1".toList, "1".toList, false⟩,
        ⟨"2".toList, "2".toList, false⟩] : List Statement) ≠
      [⟨"1".toList, "1".toList, false⟩, ⟨"3".toList, "3".toList, false⟩] := by
  decide

/-- C10 counterexample: an empty-pattern rule whose replacement is the
dollar-quote escape does not prepend the replacement: JavaScript
replace expands dollar-quote to the part of the context after the
match, so one step on context ab gives abab, not the replacement
followed by the old context. -/
theorem c10_dollar_cex :
    (step [(⟨[], ['$', sqChar], false⟩ : Statement)]
      (initRunner ("ab".toList))).1.context = "abab".toList ∧
    (['$', sqChar] ++ "ab".toList) ≠ "abab".toList := by decide

/-- C10 amended: an empty-pattern rule is applicable to every context
including the empty one; when its replacement contains no dollar sign,
applying it prepends the replacement to the context, and when it is
first in the ruleset and not closing it fires on every step, so after k
steps the context is k copies of the replacement followed by the
original context and the runner is still running. -/
theorem c10_empty_pattern (rest : List Statement) (rep ctx : List Char)
    (h : '$' ∉ rep) (k : Nat) :
    searchMatches [] ctx = true ∧
    (stepIter (⟨[], rep, false⟩ :: rest) k (initRunner ctx)).done = false ∧
    (stepIter (⟨[], rep, false⟩ :: rest) k (initRunner ctx)).context =
      repPow rep k ++ ctx ∧
    (step (⟨[], rep, false⟩ :: rest)
      (stepIter (⟨[], rep, false⟩ :: rest) k (initRunner ctx))).2 =
      some ⟨[], rep, false⟩ := by
  have hfa : ∀ ctx2 : List Char,
      findApplicable (⟨[], rep, false⟩ :: rest) ctx2 =
        some ⟨[], rep, false⟩ := by
    intro ctx2
    unfold findApplicable
    rw [if_pos]
    show searchMatches [] ctx2 = true
    exact searchMatches_nil ctx2
  have hstep : ∀ st : Runner, st.done = false →
      (step (⟨[], rep, false⟩ :: rest) st).1.context = rep ++ st.context ∧
      (step (⟨[], rep, false⟩ :: rest) st).1.done = false ∧
      (step (⟨[], rep, false⟩ :: rest) st).2 = some ⟨[], rep, false⟩ := by
    intro st hd
    rw [step_not_done hd]
    by_cases hl : st.steps.length < 1
    · rw [if_pos hl, stepApply_some (hfa _)]
      exact ⟨jsReplace_nil_pat h, rfl, rfl⟩
    · rw [if_neg hl, stepApply_some (hfa _)]
      exact ⟨jsReplace_nil_pat h, rfl, rfl⟩
  have hmain : ∀ j : Nat,
      (stepIter (⟨[], rep, false⟩ :: rest) j (initRunner ctx)).done = false ∧
      (stepIter (⟨[], rep, false⟩ :: rest) j (initRunner ctx)).context =
        repPow rep j ++ ctx := by
    intro j
    induction j with
    | zero => exact ⟨rfl, by simp [stepIter, initRunner, repPow]⟩
    | succ n ih =>
      obtain ⟨hd, hc⟩ := ih
      obtain ⟨h1, h2, h3⟩ := hstep _ hd
      rw [stepIter]
      refine ⟨h2, ?_⟩
      rw [h1, hc, repPow]
      simp [List.append_assoc]
  obtain ⟨hd, hc⟩ := hmain k
  exact ⟨searchMatches_nil ctx, hd, hc, (hstep _ hd).2.2⟩

/-- Witness for C10 at a concrete input: two steps of the empty-pattern
rule with replacement x prepend two copies of x. -/
theorem c10_empty_pattern_witness :
    (stepIter [(⟨[], "x".toList, false⟩ : Statement)] 2
      (initRunner ("ab".toList))).context =
      repPow ("x".toList) 2 ++ "ab".toList :=
  (c10_empty_pattern [] ("x".toList) ("ab".toList) (by decide) 2).2.2.1

end Markov

